import Mathlib

/-!
Verification of the line-breaking / layout engine of the `render` repository
(`render/objects/text.py`). The data model: Python strings are `List Char`
(sequences of Unicode code points), pixel widths are `Nat`, and the width
budget is `Int` (Python ints may go negative through the budget arithmetic).
The width measurer (`font.getsize`) and the hyphenation provider (`pyphen`)
are collaborators outside the repository; theorems quantify over them, with
the spec's contracts (monotone widths, genuine hyphenation cuts) as explicit
hypotheses, and instantiate a fixed-advance measurer for concrete runs.
-/

namespace Render

/-- Membership in Python's `string.ascii_letters` (`text.py` lines 75-81). -/
def isAsciiLetter (c : Char) : Bool :=
  ('a' ≤ c && c ≤ 'z') || ('A' ≤ c && c ≤ 'Z')

/-- The punctuation set `Text.MARKS` (`text.py` line 16). -/
def MARKS : List Char :=
  ['；', '：', '。', '，', '！', '？', '、', '.', ',', '!', '?', '”', '》', ';', ':']

/-- Mark classification: `text[bound] in cls.MARKS` (`text.py` line 103). -/
def isMark (c : Char) : Bool := MARKS.contains c

/-- Modelled from the spec: `render.utils.find_rightmost` (Rightmost-Fit
Search, spec section 4.2) is code of this repository that is not under
`src/`; only its call sites in `text.py` are. Per the spec it is a binary
search over a monotone `key`, returning the largest count `b` such that each
of the first `b` listed elements has `key ≤ budget`; callers index the list
at `b - 1` for the last fitting element (`text.py` line 136) and treat `b`
as one past it (`text.py` lines 66-70). `takeWhile` computes exactly that
insertion point for every monotone `key`. -/
def find_rightmost {α : Type} (xs : List α) (budget : Int) (key : α → Int) : Nat :=
  (xs.takeWhile (fun x => decide (key x ≤ budget))).length

/-- Fixed-advance width measurer: the width of a text is the sum of its
character widths. `Text._calculate_width` defers to the font backend
(`font.getsize`, `text.py` lines 44-48), which lives outside the repository;
claims are proved for an abstract measurer `μ` under the spec's section 4.1
contract where possible and instantiated with this model for concrete runs. -/
def perChar (cw : Char → Nat) (s : List Char) : Nat := (s.map cw).sum

/-- Python `str.lstrip(" ")` (`text.py` line 118). -/
def lstripSpace (s : List Char) : List Char := s.dropWhile (fun c => c == ' ')

/-- Python `str.rstrip(" ")` (`text.py` line 117). -/
def rstripSpace (s : List Char) : List Char :=
  (s.reverse.dropWhile (fun c => c == ' ')).reverse

/-- Python `str.splitlines` (`text.py` line 139), restricted to the line
terminators `\n`, `\r` and `\r\n`; a trailing terminator produces no extra
line and the empty string produces no line at all. -/
def splitlinesAux : List Char → List Char → List (List Char)
  | [], acc => if acc.isEmpty then [] else [acc.reverse]
  | '\r' :: '\n' :: rest, acc => acc.reverse :: splitlinesAux rest []
  | '\n' :: rest, acc => acc.reverse :: splitlinesAux rest []
  | '\r' :: rest, acc => acc.reverse :: splitlinesAux rest []
  | c :: rest, acc => splitlinesAux rest (c :: acc)

/-- Python `text.splitlines()` (`text.py` line 139). -/
def splitlines (s : List Char) : List (List Char) := splitlinesAux s []

/-- Outcome of `Text._split_line`. `err` models the raise
`ValueError("Text is too long to fit in the given width")` (`text.py`
line 69; the spec's LayoutError); `fuelOut` is the model's marker for an
exhausted recursion budget and is unreachable for `fuel > text.length` under
a valid hyphenation provider (`split_line_no_fuelOut`). -/
inductive SplitOutcome where
  | ok (lines : List (List Char))
  | err
  | fuelOut
deriving DecidableEq, Repr

/-- Start of the maximal ASCII-letter run ending at index `i`: the backward
scan `while prev >= 0 and text[prev] in string.ascii_letters: prev -= 1`
followed by `prev += 1` (`text.py` lines 77-82 and 107-111). -/
def letterRunStart (text : List Char) (i : Nat) : Nat :=
  (i + 1) - ((text.take (i + 1)).reverse.takeWhile isAsciiLetter).length

/-- End of the maximal ASCII-letter run starting at index `i`: the forward
scan `while next < len(text) and text[next] in string.ascii_letters`
(`text.py` lines 80-81). -/
def letterRunEnd (text : List Char) (i : Nat) : Nat :=
  i + ((text.drop i).takeWhile isAsciiLetter).length

/-- `Text._split_word` (`text.py` lines 121-136): sort the hyphenation
provider's candidates by prefix length ascending (Python's stable `sort`),
run the rightmost-fit search over the candidate indices against `max_width`
with key `measure(prefix + "-")`, and return the selected
`(prefix ++ "-", suffix)`; `([], word)` when no candidate fits or none
exist. -/
def split_word (μ : List Char → Nat) (hyph : List Char → List (List Char × List Char))
    (word : List Char) (max_width : Int) : List Char × List Char :=
  let cuts := (hyph word).mergeSort (fun a b => decide (a.1.length ≤ b.1.length))
  let cut_bound := find_rightmost (List.range cuts.length) max_width
    (fun k => ((μ ((cuts.getD k ([], [])).1 ++ ['-'])) : Int))
  if cut_bound = 0 ∨ cuts = [] then ([], word)
  else ((cuts.getD (cut_bound - 1) ([], [])).1 ++ ['-'],
        (cuts.getD (cut_bound - 1) ([], [])).2)

/-- Splitter step 2 (`text.py` lines 60-65): rightmost-fit search over the
prefix lengths `0 .. len(text)-1` of the remaining text. -/
def bound_raw (μ : List Char → Nat) (W : Int) (text : List Char) : Nat :=
  find_rightmost (List.range text.length) W (fun k => ((μ (text.take k)) : Int))

/-- Splitter step 3 (`text.py` lines 66-67): decrement the bound when the
prefix it denotes overshoots the budget. -/
def bound_adj (μ : List Char → Nat) (W : Int) (text : List Char) : Nat :=
  if ((μ (text.take (bound_raw μ W text))) : Int) > W then bound_raw μ W text - 1
  else bound_raw μ W text

/-- Word-boundary refinement (`text.py` lines 73-100): when the code point at
the bound is an ASCII letter, widen to the enclosing word `[prev, next)`;
for a word of more than one letter, with hyphenation off or with no viable
cut move the bound to the word's start (`Sum.inr prev`), and with a viable
hyphenation cut return the finished head line together with the new
remaining text (`Sum.inl`, the early `return` at `text.py` lines 96-100). -/
def after_letter (μ : List Char → Nat) (hyph : List Char → List (List Char × List Char))
    (W : Int) (hyphenation : Bool) (text : List Char) (bound : Nat) :
    (List Char × List Char) ⊕ Nat :=
  if isAsciiLetter (text.getD bound ' ') then
    let prev := letterRunStart text bound
    let nxt := letterRunEnd text bound
    let word := (text.take nxt).drop prev
    if 1 < word.length then
      if hyphenation then
        let fs := split_word μ hyph word (W - ((μ (text.take prev)) : Int))
        if fs.1 = [] then Sum.inr prev
        else Sum.inl (text.take prev ++ fs.1, fs.2 ++ text.drop nxt)
      else Sum.inr prev
    else Sum.inr bound
  else Sum.inr bound

/-- Mark-boundary refinement (`text.py` lines 102-112): avoid starting the
next line with a punctuation mark by extending the bound when the mark still
fits the budget, otherwise moving the bound to the start of the letter run
preceding the mark. -/
def mark_adjust (μ : List Char → Nat) (W : Int) (text : List Char) (bound : Nat) : Nat :=
  if isMark (text.getD bound ' ') then
    if ((μ (text.take (bound + 1))) : Int) ≤ W then bound + 1
    else letterRunStart text (bound - 1)
  else bound

/-- `Text._split_line` (`text.py` lines 50-119). The Python recursion is on a
strictly shorter remaining text; the model spends one unit of `fuel` per
recursive call, with `b1` the corrected search bound, `b2` the
mark-adjusted bound and `b3` the final bound after the forward-progress
guard (`text.py` lines 113-115) that restores the unadjusted bound when
refinement reduced it to zero. -/
def split_line (μ : List Char → Nat) (hyph : List Char → List (List Char × List Char))
    (W : Int) (hyphenation : Bool) : Nat → List Char → SplitOutcome
  | 0, _ => SplitOutcome.fuelOut
  | fuel + 1, text =>
    if text.length = 0 then SplitOutcome.ok []
    else if bound_adj μ W text = 0 then SplitOutcome.err
    else if bound_adj μ W text = text.length then SplitOutcome.ok [text]
    else
      match after_letter μ hyph W hyphenation text (bound_adj μ W text) with
      | Sum.inl pr =>
        match split_line μ hyph W hyphenation fuel pr.2 with
        | SplitOutcome.ok ls => SplitOutcome.ok (pr.1 :: ls)
        | e => e
      | Sum.inr b =>
        match split_line μ hyph W hyphenation fuel
            (lstripSpace (text.drop (if mark_adjust μ W text b = 0 then bound_adj μ W text
              else mark_adjust μ W text b))) with
        | SplitOutcome.ok ls =>
          SplitOutcome.ok (rstripSpace (text.take (if mark_adjust μ W text b = 0
            then bound_adj μ W text else mark_adjust μ W text b)) :: ls)
        | e => e

/-- The loop body of `Text.cut` (`text.py` lines 143-147): split each
physical line with the line splitter and concatenate the results,
propagating the first raise. Each line gets fuel `length + 1`, which
`split_line_no_fuelOut` shows is enough under a valid provider. -/
def splitJoin (μ : List Char → Nat) (hyph : List Char → List (List Char × List Char))
    (W : Int) (hyphenation : Bool) : List (List Char) → SplitOutcome
  | [] => SplitOutcome.ok []
  | l :: ls =>
    match split_line μ hyph W hyphenation (l.length + 1) l with
    | SplitOutcome.ok a =>
      match splitJoin μ hyph W hyphenation ls with
      | SplitOutcome.ok b => SplitOutcome.ok (a ++ b)
      | e => e
    | e => e

/-- `Text.cut` (`text.py` lines 138-148): split on hard line breaks; without
a width budget return the physical lines unchanged, otherwise run the line
splitter on every physical line. -/
def cut (μ : List Char → Nat) (hyph : List Char → List (List Char × List Char))
    (hyphenation : Bool) (text : List Char) (max_width : Option Int) : SplitOutcome :=
  match max_width with
  | none => SplitOutcome.ok (splitlines text)
  | some W => splitJoin μ hyph W hyphenation (splitlines text)

/-- `Text.__init__` (`text.py` lines 19-42): stores the styling unchecked and
eagerly computes `pre_rendered` via `cut`. `size` is only forwarded to the
font backend (`truetype`, outside the repository) and is never examined by
the repository's code, so construction succeeds or raises exactly as `cut`
does on the given text. -/
def text_init (μ : List Char → Nat) (hyph : List Char → List (List Char × List Char))
    (size : Int) (hyphenation : Bool) (text : List Char) (max_width : Option Int) :
    SplitOutcome :=
  cut μ hyph hyphenation text max_width

/-- `Text.content_width` (`text.py` lines 166-169): Python's `max` over the
pre-rendered line widths; it raises `ValueError` on an empty sequence, which
the model renders as `none`. -/
def content_width (widths : List Nat) : Option Nat := widths.max?

/-- A hyphenation provider is valid when every candidate is a genuine cut of
the word: nonempty prefix and `prefix ++ suffix = word`. The provider used by
the code, `pyphen.Pyphen(lang="en_US").iterate` (`text.py` lines 17
and 128, outside the repository), yields exactly such pairs. -/
def ValidHyph (hyph : List Char → List (List Char × List Char)) : Prop :=
  ∀ w p s, (p, s) ∈ hyph w → p ≠ [] ∧ p ++ s = w

/-- Relation between produced lines and the physical input line: restoring
the spaces trimmed at each break and removing the hyphens inserted by
hyphenation cuts, the lines concatenate back to the input, so every other
code point appears, in order, in exactly one line. -/
inductive Covers : List (List Char) → List Char → Prop where
  | nil : Covers [] []
  | line (l sp rest : List Char) (ls : List (List Char)) :
      (∀ c ∈ sp, c = ' ') → Covers ls rest → Covers (l :: ls) (l ++ (sp ++ rest))
  | hyphenated (core rest : List Char) (ls : List (List Char)) :
      Covers ls rest → Covers ((core ++ ['-']) :: ls) (core ++ rest)

/-- The Word Splitter as the spec's section 4.4 words it: sort the provider's
candidates by prefix length ascending, then return the largest-prefix
candidate whose measured `prefix ++ "-"` fits the budget, else `("", word)`.
A second, spec-side definition, compared with `split_word` in claim C5. -/
def split_word_spec (μ : List Char → Nat) (hyph : List Char → List (List Char × List Char))
    (word : List Char) (budget : Int) : List Char × List Char :=
  let cuts := (hyph word).mergeSort (fun a b => decide (a.1.length ≤ b.1.length))
  match (cuts.filter (fun c => decide ((μ (c.1 ++ ['-']) : Int) ≤ budget))).getLast? with
  | none => ([], word)
  | some c => (c.1 ++ ['-'], c.2)

/-- The spec examples' fixed-width font: every code point measures 10px. -/
def cw10 : Char → Nat := fun _ => 10

/-- A hyphenation provider with no candidates for any word (what `pyphen`
yields when the pattern dictionary knows no cut, spec section 7). -/
def noHyph : List Char → List (List Char × List Char) := fun _ => []

/-- The spec's Example 3 provider: the two candidates for "beautiful",
nothing for any other word. -/
def hyphB : List Char → List (List Char × List Char) := fun w =>
  if w = "beautiful".toList then
    [("beau".toList, "tiful".toList), ("beauti".toList, "ful".toList)]
  else []

/-! ### Support lemmas on `takeWhile` and the rightmost-fit search -/

theorem takeWhile_length_le {α : Type} (p : α → Bool) :
    ∀ l : List α, (l.takeWhile p).length ≤ l.length
  | [] => Nat.le_refl _
  | a :: l => by
    by_cases hp : p a
    · rw [List.takeWhile_cons_of_pos hp]
      have := takeWhile_length_le p l
      simpa using this
    · rw [List.takeWhile_cons_of_neg hp]
      simp

theorem takeWhile_getD_spec {α : Type} (p : α → Bool) (d : α) :
    ∀ l : List α,
      (∀ i, i < (l.takeWhile p).length → p (l.getD i d) = true) ∧
      ((l.takeWhile p).length < l.length → p (l.getD (l.takeWhile p).length d) = false)
  | [] => by simp
  | a :: l => by
    obtain ⟨h2, h3⟩ := takeWhile_getD_spec p d l
    by_cases hp : p a
    · rw [List.takeWhile_cons_of_pos hp]
      refine ⟨?_, ?_⟩
      · intro i hi
        cases i with
        | zero => simpa using hp
        | succ n =>
          rw [List.getD_cons_succ]
          exact h2 n (by simpa using hi)
      · intro hlt
        simp only [List.length_cons] at hlt ⊢
        rw [List.getD_cons_succ]
        exact h3 (by omega)
    · rw [List.takeWhile_cons_of_neg hp]
      refine ⟨by simp, ?_⟩
      intro _
      rw [List.length_nil, List.getD_cons_zero]
      simpa using hp

theorem range_getD (n k : Nat) (h : k < n) : (List.range n).getD k 0 = k := by
  rw [List.getD_eq_getElem?_getD, List.getElem?_range h]
  rfl

theorem find_rightmost_range_le (n : Nat) (W : Int) (key : Nat → Int) :
    find_rightmost (List.range n) W key ≤ n := by
  have h := takeWhile_length_le (fun x => decide (key x ≤ W)) (List.range n)
  simpa [find_rightmost] using h

theorem find_rightmost_range_fits (n : Nat) (W : Int) (key : Nat → Int) (k : Nat)
    (hk : k < find_rightmost (List.range n) W key) : key k ≤ W := by
  have hle := find_rightmost_range_le n W key
  have h2 := (takeWhile_getD_spec (fun x => decide (key x ≤ W)) 0 (List.range n)).1
  have hkn : k < n := Nat.lt_of_lt_of_le hk hle
  have hx := h2 k (by simpa [find_rightmost] using hk)
  rw [range_getD n k hkn] at hx
  exact of_decide_eq_true hx

theorem find_rightmost_range_stop (n : Nat) (W : Int) (key : Nat → Int)
    (h : find_rightmost (List.range n) W key < n) :
    W < key (find_rightmost (List.range n) W key) := by
  have h3 := (takeWhile_getD_spec (fun x => decide (key x ≤ W)) 0 (List.range n)).2
  have hx := h3 (by simpa [find_rightmost, List.length_range] using h)
  rw [range_getD n _ (by simpa [find_rightmost, List.length_range] using h)] at hx
  have hfr : find_rightmost (List.range n) W key =
      (List.takeWhile (fun x => decide (key x ≤ W)) (List.range n)).length := rfl
  rw [← hfr] at hx
  have : ¬ key (find_rightmost (List.range n) W key) ≤ W := by simpa using hx
  omega

/-! ### Facts about the corrected bound of splitter steps 2-3 -/

theorem bound_raw_le (μ : List Char → Nat) (W : Int) (text : List Char) :
    bound_raw μ W text ≤ text.length :=
  find_rightmost_range_le text.length W _

theorem bound_adj_le (μ : List Char → Nat) (W : Int) (text : List Char) :
    bound_adj μ W text ≤ text.length := by
  unfold bound_adj
  split
  · exact Nat.le_trans (Nat.sub_le _ _) (bound_raw_le μ W text)
  · exact bound_raw_le μ W text

theorem bound_adj_fits (μ : List Char → Nat) (W : Int) (text : List Char)
    (h : bound_adj μ W text ≠ 0) :
    ((μ (text.take (bound_adj μ W text))) : Int) ≤ W := by
  by_cases hgt : ((μ (text.take (bound_raw μ W text))) : Int) > W
  · have hb : bound_adj μ W text = bound_raw μ W text - 1 := by
      simp [bound_adj, hgt]
    rw [hb] at h ⊢
    have hfit := find_rightmost_range_fits text.length W
      (fun k => ((μ (text.take k)) : Int)) (bound_raw μ W text - 1)
      (by
        have hbr : bound_raw μ W text = find_rightmost (List.range text.length) W
            (fun k => ((μ (text.take k)) : Int)) := rfl
        omega)
    simpa using hfit
  · have hb : bound_adj μ W text = bound_raw μ W text := by
      simp [bound_adj, hgt]
    rw [hb]
    omega

/-! ### Prefix, strip and letter-run helpers -/

theorem take_eq_take_append {α : Type} (l : List α) (p q : Nat) (h : p ≤ q) :
    ∃ m, l.take q = l.take p ++ m := by
  refine ⟨(l.take q).drop p, ?_⟩
  have h1 : (l.take q).take p = l.take p := by
    rw [List.take_take, Nat.min_eq_left h]
  conv_lhs => rw [← List.take_append_drop p (l.take q)]
  rw [h1]

theorem mono_take (μ : List Char → Nat) (Hmono : ∀ a b, μ a ≤ μ (a ++ b))
    (text : List Char) (p q : Nat) (h : p ≤ q) :
    μ (text.take p) ≤ μ (text.take q) := by
  obtain ⟨m, hm⟩ := take_eq_take_append text p q h
  rw [hm]
  exact Hmono _ _

theorem sum_take_mono (xs : List Nat) (p q : Nat) (h : p ≤ q) :
    (xs.take p).sum ≤ (xs.take q).sum := by
  obtain ⟨m, hm⟩ := take_eq_take_append xs p q h
  rw [hm, List.sum_append]
  exact Nat.le_add_right _ _

theorem rstrip_decomp (l : List Char) :
    ∃ sp, l = rstripSpace l ++ sp ∧ ∀ c ∈ sp, c = ' ' := by
  refine ⟨(l.reverse.takeWhile (fun c => c == ' ')).reverse, ?_, ?_⟩
  · have h0 := List.takeWhile_append_dropWhile (fun c => c == ' ') l.reverse
    have h1 := congrArg List.reverse h0
    rw [List.reverse_append, List.reverse_reverse] at h1
    exact h1.symm
  · intro c hc
    rw [List.mem_reverse] at hc
    have := List.mem_takeWhile_imp hc
    simpa using this

theorem lstrip_decomp (l : List Char) :
    ∃ sp, l = sp ++ lstripSpace l ∧ ∀ c ∈ sp, c = ' ' := by
  refine ⟨l.takeWhile (fun c => c == ' '), (List.takeWhile_append_dropWhile _ _).symm, ?_⟩
  intro c hc
  have := List.mem_takeWhile_imp hc
  simpa using this

theorem rstrip_le_width (μ : List Char → Nat) (Hmono : ∀ a b, μ a ≤ μ (a ++ b))
    (l : List Char) : μ (rstripSpace l) ≤ μ l := by
  obtain ⟨sp, hl, _⟩ := rstrip_decomp l
  calc μ (rstripSpace l) ≤ μ (rstripSpace l ++ sp) := Hmono _ _
    _ = μ l := by rw [← hl]

theorem lstrip_length_le (l : List Char) : (lstripSpace l).length ≤ l.length := by
  obtain ⟨sp, hl, _⟩ := lstrip_decomp l
  have := congrArg List.length hl
  rw [List.length_append] at this
  omega

theorem letterRunStart_le_succ (text : List Char) (i : Nat) :
    letterRunStart text i ≤ i + 1 :=
  Nat.sub_le _ _

theorem letterRunStart_le (text : List Char) (i : Nat) (hi : i < text.length)
    (hl : isAsciiLetter (text.getD i ' ') = true) : letterRunStart text i ≤ i := by
  have h1 : text.take (i + 1) = text.take i ++ [text.getD i ' '] := by
    rw [List.getD_eq_getElem?_getD, List.getElem?_eq_getElem hi, List.take_succ,
      List.getElem?_eq_getElem hi]
    rfl
  rw [letterRunStart, h1, List.reverse_append]
  simp only [List.reverse_singleton, List.singleton_append]
  rw [List.takeWhile_cons_of_pos hl]
  simp only [List.length_cons]
  omega

theorem letterRunEnd_le (text : List Char) (i : Nat) (h : i ≤ text.length) :
    letterRunEnd text i ≤ text.length := by
  have h1 := takeWhile_length_le isAsciiLetter (text.drop i)
  rw [List.length_drop] at h1
  rw [letterRunEnd]
  omega

theorem letterRunEnd_ge (text : List Char) (i : Nat) : i ≤ letterRunEnd text i :=
  Nat.le_add_right _ _

/-! ### Characterising the word splitter and the boundary refinements -/

theorem split_word_cases (μ : List Char → Nat)
    (hyph : List Char → List (List Char × List Char)) (w : List Char) (B : Int) :
    split_word μ hyph w B = ([], w) ∨
    ∃ p s, (p, s) ∈ hyph w ∧ split_word μ hyph w B = (p ++ ['-'], s) ∧
      ((μ (p ++ ['-'])) : Int) ≤ B := by
  by_cases h0 : find_rightmost
      (List.range ((hyph w).mergeSort (fun a b => decide (a.1.length ≤ b.1.length))).length) B
      (fun k => ((μ ((((hyph w).mergeSort
          (fun a b => decide (a.1.length ≤ b.1.length))).getD k ([], [])).1 ++ ['-'])) : Int)) = 0 ∨
      (hyph w).mergeSort (fun a b => decide (a.1.length ≤ b.1.length)) = []
  · left
    simp only [split_word]
    rw [if_pos h0]
  · right
    push_neg at h0
    obtain ⟨hcb0, hcne⟩ := h0
    set cuts := (hyph w).mergeSort (fun a b => decide (a.1.length ≤ b.1.length)) with hcuts
    set cb := find_rightmost (List.range cuts.length) B
      (fun k => ((μ ((cuts.getD k ([], [])).1 ++ ['-'])) : Int)) with hcb
    have hle : cb ≤ cuts.length := find_rightmost_range_le _ _ _
    have hlt : cb - 1 < cuts.length := by
      have : cuts.length ≠ 0 := fun hc => hcne (List.length_eq_zero.mp hc)
      omega
    have hfit : ((μ ((cuts.getD (cb - 1) ([], [])).1 ++ ['-'])) : Int) ≤ B := by
      have hx := find_rightmost_range_fits cuts.length B
        (fun k => ((μ ((cuts.getD k ([], [])).1 ++ ['-'])) : Int)) (cb - 1)
        (by rw [← hcb]; omega)
      simpa using hx
    have hmem : cuts.getD (cb - 1) ([], []) ∈ cuts := by
      rw [List.getD_eq_getElem _ _ hlt]
      exact List.getElem_mem hlt
    have hmem2 : cuts.getD (cb - 1) ([], []) ∈ hyph w :=
      (List.mergeSort_perm (hyph w) (fun a b => decide (a.1.length ≤ b.1.length))).mem_iff.mp
        (hcuts ▸ hmem)
    refine ⟨(cuts.getD (cb - 1) ([], [])).1, (cuts.getD (cb - 1) ([], [])).2, by simpa using hmem2,
      ?_, hfit⟩
    simp only [split_word]
    rw [if_neg]
    push_neg
    exact ⟨hcb0, hcne⟩

theorem after_letter_inr (μ : List Char → Nat)
    (hyph : List Char → List (List Char × List Char)) (W : Int) (hy : Bool)
    (text : List Char) (b1 b : Nat)
    (h : after_letter μ hyph W hy text b1 = Sum.inr b) :
    b = b1 ∨ (isAsciiLetter (text.getD b1 ' ') = true ∧ b = letterRunStart text b1) := by
  unfold after_letter at h
  by_cases hl : isAsciiLetter (text.getD b1 ' ') = true
  · simp only [hl, if_true] at h
    by_cases hw : 1 < ((text.take (letterRunEnd text b1)).drop (letterRunStart text b1)).length
    · simp only [hw, if_true] at h
      cases hy with
      | false =>
        simp only [Bool.false_eq_true, if_false] at h
        exact Or.inr ⟨hl, (Sum.inr.injEq _ _).mp h |>.symm⟩
      | true =>
        simp only [if_true] at h
        by_cases hfs : (split_word μ hyph
            ((text.take (letterRunEnd text b1)).drop (letterRunStart text b1))
            (W - ((μ (text.take (letterRunStart text b1))) : Int))).1 = []
        · rw [if_pos hfs] at h
          exact Or.inr ⟨hl, (Sum.inr.injEq _ _).mp h |>.symm⟩
        · rw [if_neg hfs] at h
          exact Sum.noConfusion h
    · simp only [hw, if_false] at h
      exact Or.inl ((Sum.inr.injEq _ _).mp h |>.symm)
  · simp only [hl, if_false] at h
    exact Or.inl ((Sum.inr.injEq _ _).mp h |>.symm)

theorem after_letter_inl (μ : List Char → Nat)
    (hyph : List Char → List (List Char × List Char)) (W : Int) (hy : Bool)
    (text : List Char) (b1 : Nat) (pr : List Char × List Char)
    (h : after_letter μ hyph W hy text b1 = Sum.inl pr) :
    ∃ p s, (p, s) ∈ hyph ((text.take (letterRunEnd text b1)).drop (letterRunStart text b1)) ∧
      pr.1 = text.take (letterRunStart text b1) ++ (p ++ ['-']) ∧
      pr.2 = s ++ text.drop (letterRunEnd text b1) ∧
      ((μ (p ++ ['-'])) : Int) ≤ W - ((μ (text.take (letterRunStart text b1))) : Int) ∧
      1 < ((text.take (letterRunEnd text b1)).drop (letterRunStart text b1)).length := by
  unfold after_letter at h
  by_cases hl : isAsciiLetter (text.getD b1 ' ') = true
  · simp only [hl, if_true] at h
    by_cases hw : 1 < ((text.take (letterRunEnd text b1)).drop (letterRunStart text b1)).length
    · simp only [hw, if_true] at h
      cases hy with
      | false =>
        simp only [Bool.false_eq_true, if_false] at h
        exact Sum.noConfusion h
      | true =>
        simp only [if_true] at h
        rcases split_word_cases μ hyph
            ((text.take (letterRunEnd text b1)).drop (letterRunStart text b1))
            (W - ((μ (text.take (letterRunStart text b1))) : Int)) with hc | ⟨p, s, hmem, heq, hfits⟩
        · rw [hc] at h
          simp at h
        · rw [heq] at h
          have hne : (p ++ ['-'] : List Char) ≠ [] := by simp
          rw [if_neg hne] at h
          have hpr := (Sum.inl.injEq _ _).mp h
          exact ⟨p, s, hmem, by rw [← hpr], by rw [← hpr], hfits, hw⟩
    · simp only [hw, if_false] at h
      exact Sum.noConfusion h
  · simp only [hl, if_false] at h
    exact Sum.noConfusion h

theorem after_letter_false_inr (μ : List Char → Nat)
    (hyph : List Char → List (List Char × List Char)) (W : Int)
    (text : List Char) (b1 : Nat) (pr : List Char × List Char) :
    after_letter μ hyph W false text b1 ≠ Sum.inl pr := by
  intro h
  unfold after_letter at h
  by_cases hl : isAsciiLetter (text.getD b1 ' ') = true
  · simp only [hl, if_true] at h
    by_cases hw : 1 < ((text.take (letterRunEnd text b1)).drop (letterRunStart text b1)).length
    · simp only [hw, if_true, Bool.false_eq_true, if_false] at h
      exact Sum.noConfusion h
    · simp only [hw, if_false] at h
      exact Sum.noConfusion h
  · simp only [hl, if_false] at h
    exact Sum.noConfusion h

theorem final_bound_pos (μ : List Char → Nat) (W : Int) (text : List Char) (b : Nat)
    (hb1 : bound_adj μ W text ≠ 0) :
    (if mark_adjust μ W text b = 0 then bound_adj μ W text else mark_adjust μ W text b) ≠ 0 := by
  split
  · exact hb1
  · assumption

theorem final_bound_le (μ : List Char → Nat) (W : Int) (text : List Char) (b : Nat)
    (hble : b ≤ bound_adj μ W text) (hb0 : bound_adj μ W text ≠ 0) :
    (if mark_adjust μ W text b = 0 then bound_adj μ W text else mark_adjust μ W text b) ≤
      bound_adj μ W text ∨
    (if mark_adjust μ W text b = 0 then bound_adj μ W text else mark_adjust μ W text b) = b + 1 ∧
      ((μ (text.take (b + 1))) : Int) ≤ W := by
  by_cases hz : mark_adjust μ W text b = 0
  · rw [if_pos hz]
    exact Or.inl (Nat.le_refl _)
  · rw [if_neg hz]
    unfold mark_adjust at hz ⊢
    by_cases hm : isMark (text.getD b ' ') = true
    · rw [if_pos hm] at hz ⊢
      by_cases hfit : ((μ (text.take (b + 1))) : Int) ≤ W
      · rw [if_pos hfit]
        exact Or.inr ⟨rfl, hfit⟩
      · rw [if_neg hfit] at hz ⊢
        have h1 := letterRunStart_le_succ text (b - 1)
        omega
    · rw [if_neg hm]
      exact Or.inl hble

theorem final_bound_fits (μ : List Char → Nat) (W : Int) (text : List Char) (b : Nat)
    (Hmono : ∀ a b, μ a ≤ μ (a ++ b))
    (hble : b ≤ bound_adj μ W text) (hb0 : bound_adj μ W text ≠ 0) :
    ((μ (text.take (if mark_adjust μ W text b = 0 then bound_adj μ W text
        else mark_adjust μ W text b))) : Int) ≤ W := by
  rcases final_bound_le μ W text b hble hb0 with hle | ⟨heq, hfit⟩
  · calc ((μ (text.take (if mark_adjust μ W text b = 0 then bound_adj μ W text
        else mark_adjust μ W text b))) : Int)
        ≤ ((μ (text.take (bound_adj μ W text))) : Int) := by
          exact_mod_cast mono_take μ Hmono text _ _ hle
      _ ≤ W := bound_adj_fits μ W text hb0
  · rw [heq]
    exact hfit

/-! ### Destructing one step of the splitter -/

theorem split_line_succ_ok (μ : List Char → Nat)
    (hyph : List Char → List (List Char × List Char)) (W : Int) (hy : Bool)
    (fuel : Nat) (text : List Char) (lines : List (List Char))
    (h : split_line μ hyph W hy (fuel + 1) text = SplitOutcome.ok lines) :
    (text = [] ∧ lines = []) ∨
    (text ≠ [] ∧ bound_adj μ W text ≠ 0 ∧ bound_adj μ W text = text.length ∧
      lines = [text]) ∨
    (∃ pr ls, text ≠ [] ∧ bound_adj μ W text ≠ 0 ∧ bound_adj μ W text ≠ text.length ∧
      after_letter μ hyph W hy text (bound_adj μ W text) = Sum.inl pr ∧
      split_line μ hyph W hy fuel pr.2 = SplitOutcome.ok ls ∧ lines = pr.1 :: ls) ∨
    (∃ b b3 ls, text ≠ [] ∧ bound_adj μ W text ≠ 0 ∧ bound_adj μ W text ≠ text.length ∧
      after_letter μ hyph W hy text (bound_adj μ W text) = Sum.inr b ∧
      b3 = (if mark_adjust μ W text b = 0 then bound_adj μ W text
        else mark_adjust μ W text b) ∧
      split_line μ hyph W hy fuel (lstripSpace (text.drop b3)) = SplitOutcome.ok ls ∧
      lines = rstripSpace (text.take b3) :: ls) := by
  rw [split_line] at h
  split at h
  · rename_i h0
    exact Or.inl ⟨List.length_eq_zero.mp h0, ((SplitOutcome.ok.injEq _ _).mp h).symm⟩
  · rename_i h0
    have hne : text ≠ [] := fun hc => h0 (by simp [hc])
    split at h
    · exact absurd h (by simp)
    · rename_i hb0
      split at h
      · rename_i hbl
        exact Or.inr (Or.inl ⟨hne, hb0, hbl, ((SplitOutcome.ok.injEq _ _).mp h).symm⟩)
      · rename_i hbl
        split at h
        · rename_i pr hal
          split at h
          · rename_i ls hrec
            refine Or.inr (Or.inr (Or.inl ⟨pr, ls, hne, hb0, hbl, hal, hrec, ?_⟩))
            exact ((SplitOutcome.ok.injEq _ _).mp h).symm
          · exact absurd h (by simp_all)
        · rename_i b hal
          split at h
          · rename_i ls hrec
            refine Or.inr (Or.inr (Or.inr ⟨b, _, ls, hne, hb0, hbl, hal, rfl, hrec, ?_⟩))
            exact ((SplitOutcome.ok.injEq _ _).mp h).symm
          · exact absurd h (by simp_all)

theorem after_letter_inl_length (μ : List Char → Nat)
    (hyph : List Char → List (List Char × List Char)) (W : Int) (hy : Bool)
    (text : List Char) (b1 : Nat) (pr : List Char × List Char)
    (Hv : ValidHyph hyph) (hb1 : b1 < text.length)
    (h : after_letter μ hyph W hy text b1 = Sum.inl pr) :
    pr.2.length < text.length := by
  obtain ⟨p, s, hmem, hline, hrest, hfit, hw⟩ := after_letter_inl μ hyph W hy text b1 pr h
  obtain ⟨hp, hps⟩ := Hv _ _ _ hmem
  have hlen := congrArg List.length hps
  rw [List.length_append] at hlen
  have hplen : 0 < p.length := List.length_pos.mpr hp
  have hrlen := congrArg List.length hrest
  rw [List.length_append, List.length_drop] at hrlen
  have hwordlen : ((text.take (letterRunEnd text b1)).drop (letterRunStart text b1)).length
      = (text.take (letterRunEnd text b1)).length - letterRunStart text b1 :=
    List.length_drop _ _
  have htklen : (text.take (letterRunEnd text b1)).length =
      min (letterRunEnd text b1) text.length := List.length_take _ _
  have hnle : letterRunEnd text b1 ≤ text.length := letterRunEnd_le text b1 (Nat.le_of_lt hb1)
  have hmin : min (letterRunEnd text b1) text.length = letterRunEnd text b1 :=
    Nat.min_eq_left hnle
  rw [hmin] at htklen
  omega

/-! ### The four structural theorems of the splitter -/

theorem split_line_no_fuelOut (μ : List Char → Nat)
    (hyph : List Char → List (List Char × List Char)) (W : Int) (hy : Bool)
    (Hv : ValidHyph hyph) :
    ∀ fuel text, text.length < fuel →
      split_line μ hyph W hy fuel text ≠ SplitOutcome.fuelOut := by
  intro fuel
  induction fuel with
  | zero => intro text hlen; omega
  | succ n ih =>
    intro text hlen
    rw [split_line]
    split
    · simp
    split
    · simp
    split
    · simp
    rename_i h0 hb0 hbl
    split
    · rename_i pr hal
      split
      · simp
      · have h2 := after_letter_inl_length μ hyph W hy text (bound_adj μ W text) pr Hv
          (Nat.lt_of_le_of_ne (bound_adj_le μ W text) hbl) hal
        exact ih pr.2 (by omega)
    · rename_i b hal
      split
      · simp
      · have hb3pos : (if mark_adjust μ W text b = 0 then bound_adj μ W text
            else mark_adjust μ W text b) ≠ 0 := final_bound_pos μ W text b hb0
        have h2 : (lstripSpace (text.drop (if mark_adjust μ W text b = 0
            then bound_adj μ W text else mark_adjust μ W text b))).length < text.length := by
          have ha := lstrip_length_le (text.drop (if mark_adjust μ W text b = 0
            then bound_adj μ W text else mark_adjust μ W text b))
          rw [List.length_drop] at ha
          omega
        exact ih _ (by omega)

theorem split_line_count (μ : List Char → Nat)
    (hyph : List Char → List (List Char × List Char)) (W : Int) (hy : Bool)
    (Hv : ValidHyph hyph) :
    ∀ fuel text lines, split_line μ hyph W hy fuel text = SplitOutcome.ok lines →
      lines.length ≤ text.length := by
  intro fuel
  induction fuel with
  | zero =>
    intro text lines h
    rw [split_line] at h
    exact absurd h (by simp)
  | succ n ih =>
    intro text lines h
    rcases split_line_succ_ok μ hyph W hy n text lines h with
      ⟨htext, hlines⟩ | ⟨hne, hb0, hbl, hlines⟩ |
      ⟨pr, ls, hne, hb0, hbl, hal, hrec, hlines⟩ |
      ⟨b, b3, ls, hne, hb0, hbl, hal, hb3, hrec, hlines⟩
    · simp [htext, hlines]
    · have hpos : 0 < text.length := List.length_pos.mpr hne
      rw [hlines]
      simpa using hpos
    · have h1 := ih pr.2 ls hrec
      have h2 := after_letter_inl_length μ hyph W hy text (bound_adj μ W text) pr Hv
        (Nat.lt_of_le_of_ne (bound_adj_le μ W text) hbl) hal
      rw [hlines]
      simp only [List.length_cons]
      omega
    · have h1 := ih _ ls hrec
      have h2 : (lstripSpace (text.drop b3)).length ≤ text.length - b3 := by
        have ha := lstrip_length_le (text.drop b3)
        rw [List.length_drop] at ha
        exact ha
      have hb3pos : b3 ≠ 0 := by
        rw [hb3]
        exact final_bound_pos μ W text b hb0
      have hpos : 0 < text.length := List.length_pos.mpr hne
      rw [hlines]
      simp only [List.length_cons]
      omega

theorem split_line_width (μ : List Char → Nat)
    (hyph : List Char → List (List Char × List Char)) (W : Int) (hy : Bool)
    (Hmono : ∀ a b, μ a ≤ μ (a ++ b)) (Hsub : ∀ a b, μ (a ++ b) ≤ μ a + μ b) :
    ∀ fuel text lines, split_line μ hyph W hy fuel text = SplitOutcome.ok lines →
      ∀ l ∈ lines, ((μ l) : Int) ≤ W := by
  intro fuel
  induction fuel with
  | zero =>
    intro text lines h
    rw [split_line] at h
    exact absurd h (by simp)
  | succ n ih =>
    intro text lines h
    rcases split_line_succ_ok μ hyph W hy n text lines h with
      ⟨htext, hlines⟩ | ⟨hne, hb0, hbl, hlines⟩ |
      ⟨pr, ls, hne, hb0, hbl, hal, hrec, hlines⟩ |
      ⟨b, b3, ls, hne, hb0, hbl, hal, hb3, hrec, hlines⟩
    · rw [hlines]
      simp
    · rw [hlines]
      intro l hl
      rw [List.mem_singleton] at hl
      rw [hl]
      have hx := bound_adj_fits μ W text hb0
      rw [hbl, List.take_length] at hx
      exact hx
    · intro l hl
      rw [hlines] at hl
      rcases List.mem_cons.mp hl with rfl | hl2
      · obtain ⟨p, s, hmem, hline, hrest, hfit, hw⟩ :=
          after_letter_inl μ hyph W hy text (bound_adj μ W text) pr hal
        rw [hline]
        have h1 : μ (text.take (letterRunStart text (bound_adj μ W text)) ++ (p ++ ['-'])) ≤
            μ (text.take (letterRunStart text (bound_adj μ W text))) + μ (p ++ ['-']) :=
          Hsub _ _
        have h1c : ((μ (text.take (letterRunStart text (bound_adj μ W text)) ++
            (p ++ ['-']))) : Int) ≤
            ((μ (text.take (letterRunStart text (bound_adj μ W text)))) : Int) +
            ((μ (p ++ ['-'])) : Int) := by exact_mod_cast h1
        omega
      · exact ih pr.2 ls hrec l hl2
    · intro l hl
      rw [hlines] at hl
      rcases List.mem_cons.mp hl with rfl | hl2
      · have hble : b ≤ bound_adj μ W text := by
          rcases after_letter_inr μ hyph W hy text (bound_adj μ W text) b hal with
            rfl | ⟨hletter, rfl⟩
          · exact Nat.le_refl _
          · exact letterRunStart_le text _
              (Nat.lt_of_le_of_ne (bound_adj_le μ W text) hbl) hletter
        have hfits := final_bound_fits μ W text b Hmono hble hb0
        have hr := rstrip_le_width μ Hmono (text.take b3)
        have hrc : ((μ (rstripSpace (text.take b3))) : Int) ≤ ((μ (text.take b3)) : Int) := by
          exact_mod_cast hr
        rw [hb3] at hrc
        calc ((μ (rstripSpace (text.take b3))) : Int)
            = ((μ (rstripSpace (text.take (if mark_adjust μ W text b = 0
                then bound_adj μ W text else mark_adjust μ W text b)))) : Int) := by rw [hb3]
          _ ≤ ((μ (text.take (if mark_adjust μ W text b = 0
                then bound_adj μ W text else mark_adjust μ W text b))) : Int) := hrc
          _ ≤ W := hfits
      · exact ih _ ls hrec l hl2

theorem split_line_covers (μ : List Char → Nat)
    (hyph : List Char → List (List Char × List Char)) (W : Int) (hy : Bool)
    (Hv : ValidHyph hyph) :
    ∀ fuel text lines, split_line μ hyph W hy fuel text = SplitOutcome.ok lines →
      Covers lines text := by
  intro fuel
  induction fuel with
  | zero =>
    intro text lines h
    rw [split_line] at h
    exact absurd h (by simp)
  | succ n ih =>
    intro text lines h
    rcases split_line_succ_ok μ hyph W hy n text lines h with
      ⟨htext, hlines⟩ | ⟨hne, hb0, hbl, hlines⟩ |
      ⟨pr, ls, hne, hb0, hbl, hal, hrec, hlines⟩ |
      ⟨b, b3, ls, hne, hb0, hbl, hal, hb3, hrec, hlines⟩
    · rw [htext, hlines]
      exact Covers.nil
    · rw [hlines]
      have hc := Covers.line text [] [] [] (by simp) Covers.nil
      simpa using hc
    · obtain ⟨p, s, hmem, hline, hrest, hfit, hw⟩ :=
        after_letter_inl μ hyph W hy text (bound_adj μ W text) pr hal
      obtain ⟨hp, hps⟩ := Hv _ _ _ hmem
      have hcov : Covers ls pr.2 := ih pr.2 ls hrec
      have hpn : letterRunStart text (bound_adj μ W text) ≤
          letterRunEnd text (bound_adj μ W text) := by
        have h1 : ((text.take (letterRunEnd text (bound_adj μ W text))).drop
            (letterRunStart text (bound_adj μ W text))).length =
            (text.take (letterRunEnd text (bound_adj μ W text))).length -
            letterRunStart text (bound_adj μ W text) := List.length_drop _ _
        have h2 : (text.take (letterRunEnd text (bound_adj μ W text))).length =
            min (letterRunEnd text (bound_adj μ W text)) text.length := List.length_take _ _
        have h3 : min (letterRunEnd text (bound_adj μ W text)) text.length ≤
            letterRunEnd text (bound_adj μ W text) := Nat.min_le_left _ _
        omega
      have htk : text.take (letterRunEnd text (bound_adj μ W text)) =
          text.take (letterRunStart text (bound_adj μ W text)) ++
          ((text.take (letterRunEnd text (bound_adj μ W text))).drop
            (letterRunStart text (bound_adj μ W text))) := by
        conv_lhs => rw [← List.take_append_drop (letterRunStart text (bound_adj μ W text))
          (text.take (letterRunEnd text (bound_adj μ W text)))]
        rw [List.take_take, Nat.min_eq_left hpn]
      have htext2 : text = (text.take (letterRunStart text (bound_adj μ W text)) ++ p) ++
          (s ++ text.drop (letterRunEnd text (bound_adj μ W text))) := by
        calc text = text.take (letterRunEnd text (bound_adj μ W text)) ++
              text.drop (letterRunEnd text (bound_adj μ W text)) :=
              (List.take_append_drop _ text).symm
          _ = (text.take (letterRunStart text (bound_adj μ W text)) ++ (p ++ s)) ++
              text.drop (letterRunEnd text (bound_adj μ W text)) := by rw [htk, hps]
          _ = (text.take (letterRunStart text (bound_adj μ W text)) ++ p) ++
              (s ++ text.drop (letterRunEnd text (bound_adj μ W text))) := by
              simp [List.append_assoc]
      have hcov2 : Covers (((text.take (letterRunStart text (bound_adj μ W text)) ++ p) ++
          ['-']) :: ls) ((text.take (letterRunStart text (bound_adj μ W text)) ++ p) ++
          (s ++ text.drop (letterRunEnd text (bound_adj μ W text)))) :=
        Covers.hyphenated _ _ _ (by rw [← hrest]; exact hcov)
      rw [hlines, hline]
      have hsh : text.take (letterRunStart text (bound_adj μ W text)) ++ (p ++ ['-']) =
          (text.take (letterRunStart text (bound_adj μ W text)) ++ p) ++ ['-'] := by
        simp [List.append_assoc]
      rw [hsh]
      rw [← htext2] at hcov2
      exact hcov2
    · have hcov : Covers ls (lstripSpace (text.drop b3)) := ih _ ls hrec
      obtain ⟨sp1, hsp1, hsp1s⟩ := rstrip_decomp (text.take b3)
      obtain ⟨sp2, hsp2, hsp2s⟩ := lstrip_decomp (text.drop b3)
      have hcov2 : Covers (rstripSpace (text.take b3) :: ls)
          (rstripSpace (text.take b3) ++ ((sp1 ++ sp2) ++ lstripSpace (text.drop b3))) := by
        refine Covers.line _ (sp1 ++ sp2) _ ls ?_ hcov
        intro c hc
        rcases List.mem_append.mp hc with hx | hx
        · exact hsp1s c hx
        · exact hsp2s c hx
      have htext2 : text =
          rstripSpace (text.take b3) ++ ((sp1 ++ sp2) ++ lstripSpace (text.drop b3)) := by
        calc text = text.take b3 ++ text.drop b3 := (List.take_append_drop b3 text).symm
          _ = (rstripSpace (text.take b3) ++ sp1) ++ (sp2 ++ lstripSpace (text.drop b3)) := by
              rw [← hsp1, ← hsp2]
          _ = rstripSpace (text.take b3) ++ ((sp1 ++ sp2) ++ lstripSpace (text.drop b3)) := by
              simp [List.append_assoc]
      rw [hlines]
      rw [← htext2] at hcov2
      exact hcov2

theorem split_line_contiguous (μ : List Char → Nat)
    (hyph : List Char → List (List Char × List Char)) (W : Int) :
    ∀ fuel text lines, split_line μ hyph W false fuel text = SplitOutcome.ok lines →
      ∀ l ∈ lines, l <:+: text := by
  intro fuel
  induction fuel with
  | zero =>
    intro text lines h
    rw [split_line] at h
    exact absurd h (by simp)
  | succ n ih =>
    intro text lines h
    rcases split_line_succ_ok μ hyph W false n text lines h with
      ⟨htext, hlines⟩ | ⟨hne, hb0, hbl, hlines⟩ |
      ⟨pr, ls, hne, hb0, hbl, hal, hrec, hlines⟩ |
      ⟨b, b3, ls, hne, hb0, hbl, hal, hb3, hrec, hlines⟩
    · rw [hlines]
      simp
    · rw [hlines]
      intro l hl
      rw [List.mem_singleton] at hl
      rw [hl]
    · exact absurd hal (after_letter_false_inr μ hyph W text _ pr)
    · intro l hl
      rw [hlines] at hl
      rcases List.mem_cons.mp hl with rfl | hl2
      · have h1 : rstripSpace (text.take b3) <+: text.take b3 := by
          obtain ⟨sp, hsp, _⟩ := rstrip_decomp (text.take b3)
          exact ⟨sp, hsp.symm⟩
        have h2 : text.take b3 <+: text := ⟨text.drop b3, List.take_append_drop b3 text⟩
        exact (h1.trans h2).isInfix
      · have h3 := ih _ ls hrec l hl2
        have h4 : lstripSpace (text.drop b3) <:+ text.drop b3 := List.dropWhile_suffix _
        have h5 : text.drop b3 <:+ text := ⟨text.take b3, List.take_append_drop b3 text⟩
        exact h3.trans ((h4.trans h5).isInfix)

/-! ### Lifting the width bound through `cut` -/

theorem splitJoin_width (μ : List Char → Nat)
    (hyph : List Char → List (List Char × List Char)) (W : Int) (hy : Bool)
    (Hmono : ∀ a b, μ a ≤ μ (a ++ b)) (Hsub : ∀ a b, μ (a ++ b) ≤ μ a + μ b) :
    ∀ phys lines, splitJoin μ hyph W hy phys = SplitOutcome.ok lines →
      ∀ l ∈ lines, ((μ l) : Int) ≤ W := by
  intro phys
  induction phys with
  | nil =>
    intro lines h
    rw [splitJoin] at h
    have hl : lines = [] := by simpa using h.symm
    rw [hl]
    simp
  | cons ph phys ih =>
    intro lines h
    rw [splitJoin] at h
    split at h
    · rename_i a ha
      split at h
      · rename_i bl hb
        have hlines := (SplitOutcome.ok.injEq _ _).mp h
        intro l hl
        rw [← hlines] at hl
        rcases List.mem_append.mp hl with hx | hx
        · exact split_line_width μ hyph W hy Hmono Hsub _ ph a ha l hx
        · exact ih bl hb l hx
      · exact absurd h (by simp_all)
    · exact absurd h (by simp_all)

/-! ### The word splitter against the spec-side description -/

theorem find_rightmost_getD_eq {α : Type} (key : α → Int) (B : Int) (d : α) :
    ∀ l : List α,
      find_rightmost (List.range l.length) B (fun k => key (l.getD k d)) =
        (l.takeWhile (fun x => decide (key x ≤ B))).length
  | [] => by simp [find_rightmost]
  | a :: l => by
    rw [find_rightmost, List.length_cons, List.range_succ_eq_map]
    by_cases ha : key a ≤ B
    · rw [List.takeWhile_cons_of_pos (by simp [List.getD_cons_zero, ha]),
        List.takeWhile_cons_of_pos (by simp [ha])]
      have hfun : ((fun k => decide (key ((a :: l).getD k d) ≤ B)) ∘ Nat.succ) =
          (fun k => decide (key (l.getD k d) ≤ B)) := by
        funext k
        simp [Function.comp, List.getD_cons_succ]
      rw [List.takeWhile_map, hfun]
      simp only [List.length_cons, List.length_map]
      have hih := find_rightmost_getD_eq key B d l
      rw [find_rightmost] at hih
      omega
    · rw [List.takeWhile_cons_of_neg (by simp [List.getD_cons_zero, ha]),
        List.takeWhile_cons_of_neg (by simp [ha])]
      simp

theorem filter_eq_takeWhile_of_dc {α : Type} (p : α → Bool) :
    ∀ l : List α, List.Pairwise (fun a b => p b = true → p a = true) l →
      l.filter p = l.takeWhile p
  | [], _ => rfl
  | a :: l, hp => by
    rcases List.pairwise_cons.mp hp with ⟨hhead, htail⟩
    by_cases ha : p a = true
    · rw [List.filter_cons_of_pos ha, List.takeWhile_cons_of_pos ha,
        filter_eq_takeWhile_of_dc p l htail]
    · rw [List.filter_cons_of_neg ha, List.takeWhile_cons_of_neg ha]
      refine List.filter_eq_nil_iff.mpr ?_
      intro b hb hpb
      exact ha (hhead b hb hpb)

theorem perChar_mono (cw : Char → Nat) : ∀ a b, perChar cw a ≤ perChar cw (a ++ b) := by
  intro a b
  simp only [perChar, List.map_append, List.sum_append]
  exact Nat.le_add_right _ _

theorem perChar_subadd (cw : Char → Nat) :
    ∀ a b, perChar cw (a ++ b) ≤ perChar cw a + perChar cw b := by
  intro a b
  simp [perChar, List.map_append, List.sum_append]

theorem cuts_sorted (xs : List (List Char × List Char)) :
    List.Pairwise (fun a b => (decide (a.1.length ≤ b.1.length)) = true)
      (xs.mergeSort (fun a b => decide (a.1.length ≤ b.1.length))) :=
  List.sorted_mergeSort
    (by
      intro a b c hab hbc
      simp only [decide_eq_true_eq] at hab hbc ⊢
      omega)
    (by
      intro a b
      simp only [Bool.or_eq_true, decide_eq_true_eq]
      omega)
    xs

theorem cuts_fits_dc (cw : Char → Nat) (hyph : List Char → List (List Char × List Char))
    (w : List Char) (B : Int) (Hv : ValidHyph hyph) :
    List.Pairwise (fun a b =>
        decide (((perChar cw (b.1 ++ ['-'])) : Int) ≤ B) = true →
        decide (((perChar cw (a.1 ++ ['-'])) : Int) ≤ B) = true)
      ((hyph w).mergeSort (fun a b => decide (a.1.length ≤ b.1.length))) := by
  have hs := cuts_sorted (hyph w)
  refine hs.imp_of_mem ?_
  intro a b ha hb hle hfb
  have hperm := List.mergeSort_perm (hyph w) (fun a b => decide (a.1.length ≤ b.1.length))
  have ha2 : a ∈ hyph w := hperm.mem_iff.mp ha
  have hb2 : b ∈ hyph w := hperm.mem_iff.mp hb
  obtain ⟨hpa, hpsa⟩ := Hv w a.1 a.2 (by simpa using ha2)
  obtain ⟨hpb, hpsb⟩ := Hv w b.1 b.2 (by simpa using hb2)
  simp only [decide_eq_true_eq] at hle hfb ⊢
  have hxw : a.1 <+: w := ⟨a.2, hpsa⟩
  have hyw : b.1 <+: w := ⟨b.2, hpsb⟩
  have hxy : a.1 <+: b.1 := List.prefix_of_prefix_length_le hxw hyw hle
  obtain ⟨t, ht⟩ := hxy
  have hw : perChar cw (a.1 ++ ['-']) ≤ perChar cw (b.1 ++ ['-']) := by
    rw [← ht]
    simp only [perChar, List.map_append, List.sum_append]
    omega
  omega

theorem getLast_getD_of_append {α : Type} (l₁ t l₂ : List α) (d : α)
    (hne : l₁.length ≠ 0) (ht : l₁ ++ t = l₂) :
    l₁.getLast? = some (l₂.getD (l₁.length - 1) d) := by
  have hlt : l₁.length - 1 < l₁.length := by omega
  rw [List.getLast?_eq_getElem?, List.getD_eq_getElem?_getD, ← ht,
    List.getElem?_append, if_pos hlt, List.getElem?_eq_getElem hlt]
  rfl

theorem takeWhile_getLast_getD {α : Type} (p : α → Bool) (l : List α) (d : α)
    (h : (l.takeWhile p).length ≠ 0) :
    (l.takeWhile p).getLast? = some (l.getD ((l.takeWhile p).length - 1) d) :=
  getLast_getD_of_append (l.takeWhile p) (l.dropWhile p) l d h
    (List.takeWhile_append_dropWhile p l)

theorem split_word_refines (cw : Char → Nat)
    (hyph : List Char → List (List Char × List Char)) (word : List Char) (budget : Int)
    (Hv : ValidHyph hyph) :
    split_word (perChar cw) hyph word budget =
      split_word_spec (perChar cw) hyph word budget := by
  have hdc := cuts_fits_dc cw hyph word budget Hv
  have hfilter := filter_eq_takeWhile_of_dc
    (fun (c : List Char × List Char) => decide (((perChar cw (c.1 ++ ['-'])) : Int) ≤ budget))
    _ hdc
  have hcb := find_rightmost_getD_eq
    (fun c => ((perChar cw (c.1 ++ ['-'])) : Int)) budget (([], []) : List Char × List Char)
    ((hyph word).mergeSort (fun a b => decide (a.1.length ≤ b.1.length)))
  have hle := takeWhile_length_le
    (fun c => decide (((perChar cw (c.1 ++ ['-'])) : Int) ≤ budget))
    ((hyph word).mergeSort (fun a b => decide (a.1.length ≤ b.1.length)))
  by_cases h0 : (((hyph word).mergeSort (fun a b => decide (a.1.length ≤ b.1.length))).takeWhile
      (fun c => decide (((perChar cw (c.1 ++ ['-'])) : Int) ≤ budget))).length = 0
  · have htw : ((hyph word).mergeSort (fun a b => decide (a.1.length ≤ b.1.length))).takeWhile
        (fun c => decide (((perChar cw (c.1 ++ ['-'])) : Int) ≤ budget)) = [] :=
      List.length_eq_zero.mp h0
    simp only [split_word, split_word_spec]
    rw [hfilter, htw]
    simp only [List.getLast?_nil]
    rw [if_pos]
    left
    rw [hcb]
    exact h0
  · have hcne : ((hyph word).mergeSort (fun a b => decide (a.1.length ≤ b.1.length))) ≠ [] := by
      intro hc
      rw [hc] at h0
      simp at h0
    have hlast := takeWhile_getLast_getD
      (fun c => decide (((perChar cw (c.1 ++ ['-'])) : Int) ≤ budget))
      ((hyph word).mergeSort (fun a b => decide (a.1.length ≤ b.1.length)))
      (([], []) : List Char × List Char) h0
    simp only [split_word, split_word_spec]
    rw [hfilter, hlast]
    rw [if_neg]
    · rw [hcb]
    · push_neg
      refine ⟨?_, hcne⟩
      rw [hcb]
      exact h0

/-! ### Concrete provider facts used by witnesses -/

theorem validHyph_noHyph : ValidHyph noHyph := by
  intro w p s h
  simp [noHyph] at h

theorem validHyph_hyphB : ValidHyph hyphB := by
  intro w p s h
  unfold hyphB at h
  split at h
  · rename_i hw
    subst hw
    simp only [List.mem_cons, List.not_mem_nil, or_false] at h
    rcases h with h | h
    · rw [Prod.mk.injEq] at h
      obtain ⟨hp, hs⟩ := h
      subst hp
      subst hs
      exact ⟨by decide, by decide⟩
    · rw [Prod.mk.injEq] at h
      obtain ⟨hp, hs⟩ := h
      subst hp
      subst hs
      exact ⟨by decide, by decide⟩
  · simp at h

/-! ### The claims -/

/-- Claim C1: for every input text and every configured width budget `W`,
every line produced by the line splitter — and hence every pre-rendered line
of a Text layout, since `cut` builds them all through `_split_line` — has
measured width at most `W`; the single-indivisible-unit failure case raises
(`err`) instead of producing an over-width line, so an `ok` outcome only
carries fitting lines. Proved for every width measurer that is monotone
under extension (the spec's section 4.1 contract) and subadditive on
concatenation, both true of fixed-advance metrics. -/
theorem cut_width_bound (μ : List Char → Nat)
    (hyph : List Char → List (List Char × List Char)) (W : Int) (hy : Bool)
    (text : List Char) (lines : List (List Char))
    (Hmono : ∀ a b, μ a ≤ μ (a ++ b)) (Hsub : ∀ a b, μ (a ++ b) ≤ μ a + μ b)
    (h : cut μ hyph hy text (some W) = SplitOutcome.ok lines) :
    ∀ l ∈ lines, ((μ l) : Int) ≤ W :=
  splitJoin_width μ hyph W hy Hmono Hsub (splitlines text) lines h

/-- Witness for C1 at the fixed-advance 10px font, text "a", budget 45. -/
theorem cut_width_bound_witness :
    ((perChar cw10 ['a']) : Int) ≤ 45 :=
  cut_width_bound (perChar cw10) noHyph 45 true ['a'] [['a']]
    (perChar_mono cw10) (perChar_subadd cw10) (by decide) ['a'] (by decide)

/-- Claim C2 (counterexample): the single word "abcd" with every glyph 10px
wide cannot fit the 25px budget even alone (40px > 25px) and hyphenation is
disabled, yet the splitter does not raise: the forward-progress guard
force-cuts the word, producing ["ab", "cd"]. Hence LayoutError is not raised
for every indivisible unit that cannot fit, contradicting the claim's
"exactly when". -/
theorem overwide_word_force_cut :
    split_line (perChar cw10) noHyph 25 false 5 ['a', 'b', 'c', 'd'] =
      SplitOutcome.ok [['a', 'b'], ['c', 'd']] ∧
    (25 : Int) < ((perChar cw10 ['a', 'b', 'c', 'd']) : Int) := by
  decide

/-- Claim C2 (amended): the splitter raises exactly when a single code point
cannot fit the budget even alone — whenever the head code point of the
remaining text measures more than `max_width` while the empty prefix fits,
the `err` raise fires before any refinement; an over-wide word is instead
force-cut by the guard. The spec's Example 2 (100 × "a", width 5, glyph
width 10px) instantiates this: see the witness. -/
theorem layout_error_head_code_point (μ : List Char → Nat)
    (hyph : List Char → List (List Char × List Char)) (W : Int) (hy : Bool)
    (fuel : Nat) (c : Char) (rest : List Char)
    (hempty : ((μ ([] : List Char)) : Int) ≤ W) (hc : W < ((μ [c]) : Int)) :
    split_line μ hyph W hy (fuel + 1) (c :: rest) = SplitOutcome.err := by
  have hfold : bound_raw μ W (c :: rest) = find_rightmost (List.range (c :: rest).length) W
      (fun k => ((μ ((c :: rest).take k)) : Int)) := rfl
  have hbr : bound_raw μ W (c :: rest) = 1 := by
    have hpos : 1 ≤ bound_raw μ W (c :: rest) := by
      by_contra hcon
      push_neg at hcon
      have h0 : bound_raw μ W (c :: rest) = 0 := by omega
      have hstop := find_rightmost_range_stop (c :: rest).length W
        (fun k => ((μ ((c :: rest).take k)) : Int)) (by rw [← hfold, h0]; simp)
      rw [← hfold, h0] at hstop
      simp only [List.take_zero] at hstop
      omega
    have hub : bound_raw μ W (c :: rest) < 2 := by
      by_contra hcon
      push_neg at hcon
      have hfit := find_rightmost_range_fits (c :: rest).length W
        (fun k => ((μ ((c :: rest).take k)) : Int)) 1 (by rw [← hfold]; omega)
      have h1 : (c :: rest).take 1 = [c] := rfl
      simp only at hfit
      rw [h1] at hfit
      omega
    omega
  have hba : bound_adj μ W (c :: rest) = 0 := by
    unfold bound_adj
    rw [hbr]
    have h1 : (c :: rest).take 1 = [c] := rfl
    have hgt : ((μ ((c :: rest).take 1)) : Int) > W := by
      rw [h1]
      omega
    rw [if_pos hgt]
  rw [split_line, if_neg (by simp), if_pos hba]

/-- Witness for C2 (amended): the spec's Example 2, 100 repetitions of "a"
with budget 5 and glyph width 10px, raises. -/
theorem layout_error_head_code_point_witness :
    split_line (perChar cw10) noHyph 5 true 1 ('a' :: List.replicate 99 'a') =
      SplitOutcome.err :=
  layout_error_head_code_point (perChar cw10) noHyph 5 true 0 'a' (List.replicate 99 'a')
    (by decide) (by decide)

/-- Claim C3: termination and output bound. For every input and every budget,
with a valid hyphenation provider the splitter at the fuel `cut` supplies
(`length + 1`) never exhausts it — every iteration makes forward progress
because the guard restores the unadjusted bound when refinement reached 0 —
and an `ok` outcome carries at most `length` lines. (Proved for every
budget, which subsumes the claim's positive budgets at least the
narrowest-unit width: an unfit budget terminates with the raise.) -/
theorem split_line_terminates (μ : List Char → Nat)
    (hyph : List Char → List (List Char × List Char)) (W : Int) (hy : Bool)
    (text : List Char) (Hv : ValidHyph hyph) :
    split_line μ hyph W hy (text.length + 1) text ≠ SplitOutcome.fuelOut ∧
    ∀ lines, split_line μ hyph W hy (text.length + 1) text = SplitOutcome.ok lines →
      lines.length ≤ text.length :=
  ⟨split_line_no_fuelOut μ hyph W hy Hv (text.length + 1) text (by omega),
   fun lines h => split_line_count μ hyph W hy Hv (text.length + 1) text lines h⟩

/-- Witness for C3 at the fixed-advance 10px font, text "ab", budget 45. -/
theorem split_line_terminates_witness :
    (split_line (perChar cw10) noHyph 45 true 3 ['a', 'b'] ≠ SplitOutcome.fuelOut) ∧
    ∀ lines, split_line (perChar cw10) noHyph 45 true 3 ['a', 'b'] = SplitOutcome.ok lines →
      lines.length ≤ 2 := by
  have h := split_line_terminates (perChar cw10) noHyph 45 true ['a', 'b'] validHyph_noHyph
  simpa using h

/-- Claim C4: no text is silently dropped. Whenever the splitter returns
lines for a physical line, `Covers lines text` holds: restoring the spaces
trimmed at each break and removing the hyphens inserted by hyphenation cuts,
the produced lines concatenate back to the input, so every code point other
than trimmed break spaces appears, in order, in exactly one output line. -/
theorem split_line_no_text_dropped (μ : List Char → Nat)
    (hyph : List Char → List (List Char × List Char)) (W : Int) (hy : Bool)
    (fuel : Nat) (text : List Char) (lines : List (List Char))
    (Hv : ValidHyph hyph)
    (h : split_line μ hyph W hy fuel text = SplitOutcome.ok lines) :
    Covers lines text :=
  split_line_covers μ hyph W hy Hv fuel text lines h

/-- Witness for C4 on "hi, you!" at budget 30: the three produced lines cover
the input, the trimmed break space restored. -/
theorem split_line_no_text_dropped_witness :
    Covers [['h', 'i', ','], ['y', 'o', 'u'], ['!']] ("hi, you!".toList) :=
  split_line_no_text_dropped (perChar cw10) noHyph 30 true 9 ("hi, you!".toList)
    [['h', 'i', ','], ['y', 'o', 'u'], ['!']] validHyph_noHyph (by decide)

/-- Claim C5: the Word Splitter realises the spec's section 4.4 description:
it sorts the provider's candidates by prefix length ascending and returns the
largest-prefix candidate `(prefix ++ "-", suffix)` whose measured
`prefix ++ "-"` fits the budget, and `("", word)` when no candidate fits or
none exist — stated as equality with the spec-side `split_word_spec`, for
any fixed-advance measurer and valid provider. -/
theorem split_word_spec_refinement (cw : Char → Nat)
    (hyph : List Char → List (List Char × List Char)) (word : List Char) (budget : Int)
    (Hv : ValidHyph hyph) :
    split_word (perChar cw) hyph word budget =
      split_word_spec (perChar cw) hyph word budget :=
  split_word_refines cw hyph word budget Hv

/-- Witness for C5 on the spec's Example 3: the word "beautiful" with
candidates ("beau-", "tiful") and ("beauti-", "ful") at budget 50 and
10px glyphs. -/
theorem split_word_spec_refinement_witness :
    split_word (perChar cw10) hyphB ("beautiful".toList) 50 =
      split_word_spec (perChar cw10) hyphB ("beautiful".toList) 50 :=
  split_word_spec_refinement cw10 hyphB ("beautiful".toList) 50 validHyph_hyphB

/-- Claim C6 (counterexample): on "hi, you!" with 10px glyphs and budget 30
("hi," fits exactly), the produced lines are ["hi,", "you", "!"] — the third
line begins with the Mark "!": when the mark's walk-back reaches position 0,
the forward-progress guard restores the unadjusted bound and the mark does
start a line, refuting "a produced line never begins with a Mark". -/
theorem mark_starts_line_example :
    split_line (perChar cw10) noHyph 30 true 9 ("hi, you!".toList) =
      SplitOutcome.ok [['h', 'i', ','], ['y', 'o', 'u'], ['!']] ∧
    isMark '!' = true := by
  decide

/-- Claim C6 (amended): the mark-boundary refinement keeps "," on the first
line in the spec's scenario — "hi, you!" where "hi," fits the budget exactly
splits as ["hi,", "you", "!"], the comma retained on line one; a line can
still begin with a Mark when the walk-back reaches position 0 and the guard
restores the unadjusted bound (the "!" line here). -/
theorem mark_retention_scenario :
    split_line (perChar cw10) noHyph 30 true 9 ("hi, you!".toList) =
      SplitOutcome.ok [['h', 'i', ','], ['y', 'o', 'u'], ['!']] := by
  decide

/-- Claim C7 (counterexample): with every character 10px wide, "hello" alone
measures 50px > 45px, so splitting "hello world" at `max_width = 45` cannot
produce ["hello", "world"]; the code force-cuts mid-word and yields
["hell", "o", "worl", "d"] instead (the same lines with hyphenation enabled,
since the provider has no cut for these words). -/
theorem example_one_counterexample :
    split_line (perChar cw10) noHyph 45 false 12 ("hello world".toList) =
      SplitOutcome.ok [['h', 'e', 'l', 'l'], ['o'], ['w', 'o', 'r', 'l'], ['d']] ∧
    SplitOutcome.ok [['h', 'e', 'l', 'l'], ['o'], ['w', 'o', 'r', 'l'], ['d']] ≠
      SplitOutcome.ok [['h', 'e', 'l', 'l', 'o'], ['w', 'o', 'r', 'l', 'd']] := by
  decide

/-- Claim C7 (amended): the Example 1 behaviour — lines ["hello", "world"],
the space consumed at the break — holds at `max_width = 50` (the least budget
fitting "hello"), for any hyphenation provider and flag, since the break
lands on the space. -/
theorem example_one_at_50 (hyph : List Char → List (List Char × List Char)) (hy : Bool) :
    split_line (perChar cw10) hyph 50 hy 12 ("hello world".toList) =
      SplitOutcome.ok [['h', 'e', 'l', 'l', 'o'], ['w', 'o', 'r', 'l', 'd']] := by
  rfl

/-- Claim C8: with hyphenation disabled, no produced line contains a hyphen
absent from the source text: every produced line is then a contiguous piece
of the input, so a "-" in a line already occurs in the input. -/
theorem no_inserted_hyphen (μ : List Char → Nat)
    (hyph : List Char → List (List Char × List Char)) (W : Int)
    (fuel : Nat) (text : List Char) (lines : List (List Char))
    (h : split_line μ hyph W false fuel text = SplitOutcome.ok lines) :
    ∀ l ∈ lines, '-' ∈ l → '-' ∈ text := by
  intro l hl hm
  exact (split_line_contiguous μ hyph W fuel text lines h l hl).subset hm

/-- Witness for C8 on "a-b" (a source hyphen) at budget 100: the hyphen the
produced line carries comes from the source text. -/
theorem no_inserted_hyphen_witness :
    '-' ∈ ['a', '-', 'b'] :=
  no_inserted_hyphen (perChar cw10) noHyph 100 4 ['a', '-', 'b'] [['a', '-', 'b']]
    (by decide) ['a', '-', 'b'] (by decide) (by decide)

/-- Claim C9 (counterexample): `Text.__init__` performs no eager validation:
constructing a Text with `max_width = -5` and `size = 0` over the empty text
succeeds, computing an empty line list, instead of being rejected. -/
theorem invalid_config_not_rejected :
    text_init (perChar cw10) noHyph 0 true [] (some (-5)) = SplitOutcome.ok [] := by
  decide

/-- Claim C9 (amended): invalid configuration is not rejected eagerly by
explicit validation at construction; a non-positive `max_width` surfaces
only as the LayoutError raised while the eagerly computed lines are split
(so construction over any non-empty physical line raises, and construction
that computes no lines succeeds); `size` is forwarded unvalidated to the
font backend. -/
theorem invalid_max_width_behaviour :
    text_init (perChar cw10) noHyph 0 true [] (some (-5)) = SplitOutcome.ok [] ∧
    text_init (perChar cw10) noHyph 12 true ['a'] (some 0) = SplitOutcome.err ∧
    text_init (perChar cw10) noHyph 12 true ['a'] (some (-1)) = SplitOutcome.err := by
  decide

/-- Claim C10: with a width budget configured, splitting an empty physical
line yields no lines, so blank physical lines between consecutive hard
breaks contribute no output line ("a\n\nb" gives exactly the lines "a" and
"b"); a Text whose input has no non-empty physical line (for example the
empty string) has an empty pre-rendered list, and `content_width` — Python's
`max` over that list — is then undefined (`none`, the raise), not 0. -/
theorem empty_input_no_lines :
    (∀ (μ : List Char → Nat) (hyph : List Char → List (List Char × List Char))
        (W : Int) (hy : Bool) (fuel : Nat),
        split_line μ hyph W hy (fuel + 1) [] = SplitOutcome.ok []) ∧
    (∀ (μ : List Char → Nat) (hyph : List Char → List (List Char × List Char))
        (hy : Bool) (W : Int), cut μ hyph hy [] (some W) = SplitOutcome.ok []) ∧
    cut (perChar cw10) noHyph true ("a\n\nb".toList) (some 45) =
      SplitOutcome.ok [['a'], ['b']] ∧
    content_width [] = none := by
  refine ⟨fun μ hyph W hy fuel => rfl, fun μ hyph hy W => rfl, by decide, rfl⟩

end Render
